import Mathlib

/-
Verification development for the MusicXML export engine
(partitura/exportmusicxml.py): a shallow embedding of the
timeline-to-document linearization and voice-merge code, together with
theorems settling the specification claims about it.
-/

namespace Partitura

/-- XML element model (mirrors the lxml etree elements built by the code):
a tag, an ordered attribute list, optional text content, and child list. -/
inductive XElem : Type where
| mk : String → List (String × String) → Option String → List XElem → XElem

def XElem.tag : XElem → String
| .mk t _ _ _ => t

def XElem.attrs : XElem → List (String × String)
| .mk _ a _ _ => a

def XElem.text : XElem → Option String
| .mk _ _ x _ => x

def XElem.children : XElem → List XElem
| .mk _ _ _ c => c

/-- Keys of the shared export counter dictionary: it holds both note-id
deduplication entries (string keys) and slur-numbering entries (slur
object keys); slurs are identified by a numeric identity. -/
inductive CKey : Type where
| noteId : String → CKey
| slur : Nat → CKey
deriving DecidableEq, Repr

/-- The export counter: an insertion-ordered dictionary, as a Python dict. -/
abbrev Counter := List (CKey × Nat)

/-- Dictionary lookup (`counter.get(k)`). -/
def cget (c : Counter) (k : CKey) : Option Nat :=
  (c.find? (fun p => p.1 == k)).map (fun p => p.2)

/-- Dictionary update (`counter[k] = v`): replaces in place when the key is
present, otherwise appends (Python dicts preserve insertion order). -/
def cset (c : Counter) (k : CKey) (v : Nat) : Counter :=
  if c.any (fun p => p.1 == k) then c.map (fun p => if p.1 == k then (k, v) else p)
  else c ++ [(k, v)]

/-- Dictionary deletion (`del counter[k]`). -/
def cdel (c : Counter) (k : CKey) : Counter :=
  c.filter (fun p => !(p.1 == k))

/-- `sum(1 for o in counter.keys() if isinstance(o, score.Slur))`:
the number of currently-live slur entries in the counter. -/
def liveSlurCount (c : Counter) : Nat :=
  (c.filter (fun p => match p.1 with | CKey.slur _ => true | _ => false)).length

/-- The closed tagged union of note kinds: pitched note, grace note
(with its grace-type tag), rest. -/
inductive NoteKind : Type where
| note : NoteKind
| grace : Option String → NoteKind
| rest : NoteKind
deriving DecidableEq, Repr

/-- The per-note data the exporter reads. `voice` is doubly optional:
`none` models a note object without a `voice` attribute (hasattr false),
`some none` a voice attribute whose value is Python `None`, and
`some (some v)` an integer voice. Slurs are referenced by identity. -/
structure XNote where
  id : Option String
  kind : NoteKind
  step : String
  alter : Option Int
  octave : Int
  tiePrev : Bool
  tieNext : Bool
  voice : Option (Option Nat)
  staff : Option Nat
  symType : Option String
  dots : Nat
  actualNotes : Option Nat
  normalNotes : Option Nat
  fermata : Bool
  slurStops : List Nat
  slurStarts : List Nat
  startT : Int
  endT : Int
deriving DecidableEq, Repr

def slurEl (n : Nat) (ty : String) : XElem :=
  XElem.mk "slur" [("number", toString n), ("type", ty)] none []

/-- The slur-stop loop of `make_note_el`: for each closing slur, an absent
table entry gets number 1 and is registered; a present entry is deleted and
its number used; either way a stop tag is emitted. -/
def processSlurStops : List Nat → Counter → List XElem × Counter
| [], c => ([], c)
| s :: rest, c =>
  match cget c (CKey.slur s) with
  | none =>
    let r := processSlurStops rest (cset c (CKey.slur s) 1)
    (slurEl 1 "stop" :: r.1, r.2)
  | some n =>
    let r := processSlurStops rest (cdel c (CKey.slur s))
    (slurEl n "stop" :: r.1, r.2)

/-- The slur-start loop of `make_note_el`: an absent entry is assigned
`1 + (number of live slur entries)` and registered; a present entry is
deleted and its old number used; either way a start tag is emitted. -/
def processSlurStarts : List Nat → Counter → List XElem × Counter
| [], c => ([], c)
| s :: rest, c =>
  match cget c (CKey.slur s) with
  | none =>
    let n := 1 + liveSlurCount c
    let r := processSlurStarts rest (cset c (CKey.slur s) n)
    (slurEl n "start" :: r.1, r.2)
  | some n =>
    let r := processSlurStarts rest (cdel c (CKey.slur s))
    (slurEl n "start" :: r.1, r.2)

/-- The note-id deduplication step of `make_note_el`:
`counter[note_id] = counter.get(note_id, 0) + 1`. -/
def idCounter (note : XNote) (c : Counter) : Counter :=
  match note.id with
  | none => c
  | some i => cset c (CKey.noteId i) ((cget c (CKey.noteId i)).getD 0 + 1)

/-- `make_note_el(note, dur, counter)`: builds the note element child by
child in source order and returns it with the updated counter. -/
def makeNoteEl (note : XNote) (dur : Int) (counter : Counter) : XElem × Counter :=
  let c1 := idCounter note counter
  let idAttrs : List (String × String) :=
    match note.id with
    | none => []
    | some i =>
      let m := (cget counter (CKey.noteId i)).getD 0 + 1
      [("id", if 1 < m then i ++ "_" ++ toString m else i)]
  let ch1 : List XElem :=
    match note.kind with
    | NoteKind.grace gt =>
      if gt = some "acciaccatura" then [XElem.mk "grace" [("slash", "yes")] none []]
      else [XElem.mk "grace" [] none []]
    | _ => []
  let ch2 := ch1 ++
    (match note.kind with
     | NoteKind.rest => [XElem.mk "rest" [] none []]
     | _ => [XElem.mk "pitch" [] none
        ([XElem.mk "step" [] (some note.step) []] ++
         (match note.alter with
          | some a => [XElem.mk "alter" [] (some (toString a)) []]
          | none => []) ++
         [XElem.mk "octave" [] (some (toString note.octave)) []])])
  let ch3 := ch2 ++
    (match note.kind with
     | NoteKind.grace _ => []
     | _ => [XElem.mk "duration" [] (some (toString dur)) []])
  let ch4 := ch3 ++ (if note.tiePrev then [XElem.mk "tie" [("type", "stop")] none []] else [])
  let nt1 : List XElem := if note.tiePrev then [XElem.mk "tied" [("type", "stop")] none []] else []
  let ch5 := ch4 ++ (if note.tieNext then [XElem.mk "tie" [("type", "start")] none []] else [])
  let nt2 := nt1 ++ (if note.tieNext then [XElem.mk "tied" [("type", "start")] none []] else [])
  let ch6 := ch5 ++
    (match note.voice with
     | some (some v) => if v = 0 then [] else [XElem.mk "voice" [] (some (toString v)) []]
     | _ => [])
  let nt3 := nt2 ++ (if note.fermata then [XElem.mk "fermata" [] none []] else [])
  let ch7 := ch6 ++
    (match note.symType with
     | some t => [XElem.mk "type" [] (some t) []]
     | none => [])
  let ch8 := ch7 ++ List.replicate note.dots (XElem.mk "dot" [] none [])
  let ch9 := ch8 ++
    (match note.actualNotes, note.normalNotes with
     | some a, some b =>
       [XElem.mk "time-modification" [] none
         [XElem.mk "actual-notes" [] (some (toString a)) [],
          XElem.mk "normal-notes" [] (some (toString b)) []]]
     | _, _ => [])
  let ch10 := ch9 ++
    (match note.staff with
     | some st => if st = 0 then [] else [XElem.mk "staff" [] (some (toString st)) []]
     | none => [])
  let stops := processSlurStops note.slurStops c1
  let starts := processSlurStarts note.slurStarts stops.2
  let marks := nt3 ++ stops.1 ++ starts.1
  let ch11 := ch10 ++ (if marks.isEmpty then [] else [XElem.mk "notations" [] none marks])
  (XElem.mk "note" idAttrs none ch11, starts.2)

/-- `group_notes_by_voice`: succeeds (grouping by the voice attribute value,
keys in first-occurrence order) when every note HAS a `voice` attribute,
and raises `NotImplementedError` (modelled as `none`) otherwise. A voice
attribute whose value is Python `None` counts as present. -/
def upsertVoice (m : List (Option Nat × List XNote)) (v : Option Nat) (n : XNote) :
    List (Option Nat × List XNote) :=
  match m with
  | [] => [(v, [n])]
  | (k, l) :: rest => if k = v then (k, l ++ [n]) :: rest else (k, l) :: upsertVoice rest v n

def groupNotesByVoice (ns : List XNote) : Option (List (Option Nat × List XNote)) :=
  if ns.all (fun n => n.voice.isSome) then
    some (ns.foldl (fun m n => upsertVoice m (n.voice.getD none) n) [])
  else none

/-- Stable insertion of `a` into a key-sorted list: `a` goes before the
first element whose key is not smaller (so equal keys keep original order). -/
def insSorted {α : Type _} {β : Type _} [LinearOrder β] (key : α → β) (a : α) :
    List α → List α
| [] => [a]
| b :: t => if key a ≤ key b then a :: b :: t else b :: insSorted key a t

/-- A stable sort by key (insertion sort), modelling Python's stable
`sorted(..., key=...)`. -/
def stableSortBy {α : Type _} {β : Type _} [LinearOrder β] (key : α → β) :
    List α → List α
| [] => []
| a :: t => insSorted key a (stableSortBy key t)

/-- `sorted(by_onset.keys())` for a dict keyed by onsets: the distinct
values in ascending order. -/
def sortedDistinct (l : List Int) : List Int :=
  (stableSortBy (fun x => x) l).destutter (fun a b => a ≠ b)

/-- The split-point construction of `linearize_measure_contents`:
`splits = [start]`, then each divisions start is appended when it differs
from the current last split, then `end` is appended. -/
def splitPoints (s e : Int) (ds : List Int) : List Int :=
  (ds.foldl (fun acc d => if d ≠ acc.getLastD s then acc ++ [d] else acc) [s]) ++ [e]

/-- A fermata entity: its anchor tick and its location-disambiguation ref. -/
structure XFermata where
  t : Int
  ref : Option String
deriving DecidableEq, Repr

/-- A repeat entity: independently optional start and end ticks. -/
structure XRepeat where
  startT : Option Int
  endT : Option Int
deriving DecidableEq, Repr

/-- An ending entity: its number and optional start and end ticks. -/
structure XEnding where
  number : Nat
  startT : Option Int
  endT : Option Int
deriving DecidableEq, Repr

/-- An event record `(onset, occupied duration or None, element)` as
produced by `do_note` and the collectors. -/
abbrev Event := Int × Option Int × XElem

/-- `do_barlines(part, start, end)`. Its timeline queries are external
input: `ferms` models `get_all(Fermata, start, end)`, `fermsAtEnd` models
`get_all(Fermata, end, end.next)` (fermatas anchored exactly at `end`),
and the repeat/ending lists model the corresponding start/end-range
queries. Objects are grouped by onset into one barline element per tick
with a left/right/middle location attribute. -/
def doBarlines (s e : Int) (ferms fermsAtEnd : List XFermata)
    (repStarts repEnds : List XRepeat) (endingStarts endingEnds : List XEnding) :
    List Event :=
  let fermSel :=
    ferms.filter (fun f =>
      f.ref == none || f.ref == some "left" || f.ref == some "middle" || f.ref == some "right") ++
    fermsAtEnd.filter (fun f => f.ref == none || f.ref == some "right")
  let pairs : List (Int × XElem) :=
    fermSel.map (fun f => (f.t, XElem.mk "fermata" [] none [])) ++
    repStarts.filterMap (fun r =>
      r.startT.map (fun t => (t, XElem.mk "repeat" [("direction", "forward")] none []))) ++
    endingStarts.filterMap (fun g =>
      g.startT.map (fun t =>
        (t, XElem.mk "ending" [("type", "start"), ("number", toString g.number)] none []))) ++
    repEnds.filterMap (fun r =>
      r.endT.map (fun t => (t, XElem.mk "repeat" [("direction", "backward")] none []))) ++
    endingEnds.filterMap (fun g =>
      g.endT.map (fun t =>
        (t, XElem.mk "ending" [("type", "stop"), ("number", toString g.number)] none [])))
  (sortedDistinct (pairs.map (fun p => p.1))).map (fun t =>
    let loc := if t = s then "left" else if t = e then "right" else "middle"
    (t, (none : Option Int),
      XElem.mk "barline" [("location", loc)] none
        ((pairs.filter (fun p => p.1 == t)).map (fun p => p.2))))

/-- `add_chord_tags`: the chord marker inserted as first child. -/
def chordIns (el : XElem) : XElem :=
  match el with
  | XElem.mk t a x ch => XElem.mk t a x (XElem.mk "chord" [] none [] :: ch)

def chordTagEv (ev : Event) : Event := (ev.1, ev.2.1, chordIns ev.2.2)

/-- `any(e.tag == 'grace' for e in note)`: the element has a grace child. -/
def graceB (ev : Event) : Bool :=
  ev.2.2.children.any (fun c => c.tag == "grace")

/-- One step of `add_chord_tags`: insert a chord marker when the onset
equals the tracked previous onset. -/
def chordStepEl (prev : Option Int) (ev : Event) : Event :=
  if prev = some ev.1 then chordTagEv ev else ev

/-- The previous-onset update of `add_chord_tags`: a grace element (checked
on the possibly chord-tagged element, as in the source) resets it to None,
any other element sets it to its onset. -/
def chordStepPrev (prev : Option Int) (ev : Event) : Option Int :=
  if graceB (chordStepEl prev ev) then none else some ev.1

def chordGo : Option Int → List Event → List Event
| _, [] => []
| prev, ev :: rest => chordStepEl prev ev :: chordGo (chordStepPrev prev ev) rest

/-- `add_chord_tags(notes)` with `prev` starting at None. -/
def addChordTags (l : List Event) : List Event := chordGo none l

/-- `forward_backup_if_needed(t, t_prev)`: a forward (resp. backup) jump
element when the target is after (resp. before) the cursor, together with
the absolute jump magnitude as cost. -/
def forwardBackupIfNeeded (t tPrev : Int) : List Event × Int :=
  if tPrev < t then
    ([(tPrev, some (t - tPrev),
       XElem.mk "forward" [] none [XElem.mk "duration" [] (some (toString (t - tPrev))) []])],
     t - tPrev)
  else if t < tPrev then
    ([(tPrev, some (t - tPrev),
       XElem.mk "backup" [] none [XElem.mk "duration" [] (some (toString (tPrev - t))) []])],
     tPrev - t)
  else ([], 0)

/-- The fixed intra-tick priority `{'barline': 0, 'attributes': 1, 'note': 2}`
with default `3` for any other tag. -/
def orderKey (p : Option Int × XElem) : Nat :=
  if p.2.tag = "barline" then 0
  else if p.2.tag = "attributes" then 1
  else if p.2.tag = "note" then 2
  else 3

/-- The running state of `merge_with_voice`: document cursor, last
non-chord note onset, accumulated jump cost, and output so far. -/
structure MWVState where
  lastT : Int
  lastNoteOnset : Int
  cost : Int
  out : List Event

/-- The body of the inner loop of `merge_with_voice`: chord-tagged notes
reset the cursor to the last note onset, then a jump is emitted if the
cursor differs from the onset, the element is appended, and the cursor
advances to onset + duration. -/
def mwvStep (onset : Int) (st : MWVState) (p : Option Int × XElem) : MWVState :=
  let st1 :=
    if p.2.tag = "note" then
      { st with
        lastT := if p.2.children.any (fun c => c.tag == "chord") then st.lastNoteOnset else st.lastT,
        lastNoteOnset := onset }
    else st
  let fb := forwardBackupIfNeeded onset st1.lastT
  { st1 with
    cost := st1.cost + fb.2,
    out := st1.out ++ fb.1 ++ [(onset, p.1, p.2)],
    lastT := onset + p.1.getD 0 }

/-- `merge_with_voice(notes, other, measure_start)`: group the two event
lists by onset (notes of an onset before other entries of that onset),
walk the onsets in ascending order with each onset's entries stably sorted
by the tag priority, and return the merged list with the jump cost. -/
def mergeWithVoice (notes other : List Event) (measureStart : Int) : List Event × Int :=
  let onsets := sortedDistinct ((notes ++ other).map (fun ev => ev.1))
  let fin := onsets.foldl (fun st o =>
      (stableSortBy orderKey
        (((notes.filter (fun ev => ev.1 == o)) ++ (other.filter (fun ev => ev.1 == o))).map
          (fun ev => (ev.2.1, ev.2.2)))).foldl (mwvStep o) st)
    { lastT := measureStart, lastNoteOnset := measureStart, cost := 0, out := [] }
  (fin.out, fin.cost)

/-- `notes[voice]` for the per-voice dictionary, modelled as an
association list with unique keys. -/
def lookupVoice (notes : List (Nat × List Event)) (v : Nat) : List Event :=
  ((notes.find? (fun p => p.1 == v)).map (fun p => p.2)).getD []

/-- `sorted(notes.keys())`. -/
def sortedVoiceIds (notes : List (Nat × List Event)) : List Nat :=
  stableSortBy (fun v => v) (notes.map (fun p => p.1))

/-- The trial-merge cost table of `merge_measure_contents`, in sorted
voice-id order (the insertion order of the Python `cost` dict). -/
def voiceCostList (notes : List (Nat × List Event)) (other : List Event) (ms : Int) :
    List (Nat × Int) :=
  (sortedVoiceIds notes).map (fun v => (v, (mergeWithVoice (lookupVoice notes v) other ms).2))

/-- `sorted(cost.items(), key=itemgetter(1))[0][0]`: the first voice of the
cost table stably sorted by cost; `none` models the IndexError raised when
the table is empty. -/
def selectMergeVoice (notes : List (Nat × List Event)) (other : List Event) (ms : Int) :
    Option Nat :=
  ((stableSortBy (fun p => p.2) (voiceCostList notes other ms)).head?).map (fun p => p.1)

/-- The per-voice emission step of the assembly loop of
`merge_measure_contents`: one repositioning jump when the voice's first
onset differs from the running position, then the voice's elements
stripped of their (onset, duration) tags; returns the updated position. -/
def voiceSegment (elements : List Event) (pos : Int) : List XElem × Int :=
  match elements with
  | [] => ([], pos)
  | ev :: rest =>
    let gap := ev.1 - pos
    let jump : List XElem :=
      if gap < 0 then
        [XElem.mk "backup" [] none [XElem.mk "duration" [] (some (toString (-gap))) []]]
      else if 0 < gap then
        [XElem.mk "forward" [] none [XElem.mk "duration" [] (some (toString gap)) []]]
      else []
    let lastEv := (ev :: rest).getLast (List.cons_ne_nil ev rest)
    (jump ++ (ev :: rest).map (fun x => x.2.2), lastEv.1 + lastEv.2.1.getD 0)

/-- The element list one voice contributes in the assembly loop of
`merge_measure_contents`: the winning voice `mv` contributes its trial
merge with `other`, every other voice its plain note list; the first voice
(`isFirst`) additionally has the attribute blocks interleaved with the
same merge procedure, from measure start. -/
def mmcElems (notes : List (Nat × List Event)) (other attributes : List Event)
    (ms : Int) (mv v : Nat) (isFirst : Bool) : List Event :=
  let elems0 := if v = mv then (mergeWithVoice (lookupVoice notes v) other ms).1
                else lookupVoice notes v
  if isFirst then (mergeWithVoice elems0 attributes ms).1 else elems0

/-- The assembly loop of `merge_measure_contents` over the sorted voice
ids, threading the running document position. -/
def mmcVoices (notes : List (Nat × List Event)) (other attributes : List Event)
    (ms : Int) (mv : Nat) : List Nat → Bool → Int → List XElem
| [], _, _ => []
| v :: rest, isFirst, pos =>
  let seg := voiceSegment (mmcElems notes other attributes ms mv v isFirst) pos
  seg.1 ++ mmcVoices notes other attributes ms mv rest false seg.2

/-- `merge_measure_contents(notes, attributes, other, measure_start)`:
`none` models the IndexError on an empty voice dictionary. -/
def mergeMeasureContents (notes : List (Nat × List Event)) (attributes other : List Event)
    (ms : Int) : Option (List XElem) :=
  match selectMergeVoice notes other ms with
  | none => none
  | some mv => some (mmcVoices notes other attributes ms mv (sortedVoiceIds notes) true ms)

/-! ### Concrete records for scenarios and witnesses -/

/-! ### A default note record for concrete scenarios -/

def plainNote : XNote :=
  { id := none, kind := NoteKind.note, step := "C", alter := none, octave := 4,
    tiePrev := false, tieNext := false, voice := some (some 1), staff := none,
    symType := none, dots := 0, actualNotes := none, normalNotes := none,
    fermata := false, slurStops := [], slurStarts := [], startT := 0, endT := 4 }

def slurNote1 : XNote := { plainNote with slurStarts := [0] }

def slurNote2 : XNote := { plainNote with slurStarts := [1] }

def slurNote3 : XNote := { plainNote with slurStops := [0] }

def slurNote4 : XNote := { plainNote with slurStarts := [2] }

def slurCtr1 : Counter := (makeNoteEl slurNote1 4 []).2

def slurCtr2 : Counter := (makeNoteEl slurNote2 4 slurCtr1).2

def slurCtr3 : Counter := (makeNoteEl slurNote3 4 slurCtr2).2

def wSlurCtr : Counter := [(CKey.slur 9, 1)]

def noneVoiceNote : XNote := { plainNote with voice := some none }

/-- Reference formulation of the chord-tagging rule as the specification
states it: an element receives a chord marker exactly when the immediately
preceding element is a non-grace element with the same onset (so a grace
element resets the comparison and nothing is ever tagged against it). -/
def chordSpecGo : Event → List Event → List Event
| _, [] => []
| p, ev :: rest =>
  (if graceB p = false ∧ p.1 = ev.1 then chordTagEv ev else ev) :: chordSpecGo ev rest

/-- Reference chord tagging of a whole voice list: the first element is
never tagged, later elements per `chordSpecGo`. -/
def chordMarkedList : List Event → List Event
| [] => []
| ev :: rest => ev :: chordSpecGo ev rest

/-- Adjacency order produced by the per-voice sort of the linearizer:
onsets nondecreasing, and at equal onsets a grace element never directly
follows a non-grace one (grace notes sort first at a tick). -/
def voiceOrdB (a b : Event) : Bool :=
  decide (a.1 < b.1) || (a.1 == b.1 && (graceB a || !(graceB b)))

def wGraceEl : XElem := XElem.mk "note" [] none [XElem.mk "grace" [] none []]

def wPlainEl : XElem := XElem.mk "note" [] none []

def wChordEl : XElem := XElem.mk "note" [] none [XElem.mk "chord" [] none []]

def wChordEvs : List Event :=
  [(0, some 0, wGraceEl), (0, some 4, wPlainEl), (0, some 4, wChordEl), (4, some 4, wPlainEl)]

def w10notes : List (Nat × List Event) :=
  [(1, [(0, some 4, wPlainEl)]), (2, [(0, some 2, wPlainEl)]), (3, [(4, some 4, wPlainEl)])]

def w10other : List Event := [(2, none, XElem.mk "direction" [] none [])]

/-- Block decomposition of the note element children, following the claimed
fixed order; each block's presence condition is taken from the source.
`graceBlock`: the optional grace marker, slashed only for acciaccatura. -/
def graceBlock (n : XNote) : List XElem :=
  match n.kind with
  | NoteKind.grace gt =>
    if gt = some "acciaccatura" then [XElem.mk "grace" [("slash", "yes")] none []]
    else [XElem.mk "grace" [] none []]
  | _ => []

def pitchRestBlock (n : XNote) : List XElem :=
  match n.kind with
  | NoteKind.rest => [XElem.mk "rest" [] none []]
  | _ => [XElem.mk "pitch" [] none
      ([XElem.mk "step" [] (some n.step) []] ++
       (match n.alter with
        | some a => [XElem.mk "alter" [] (some (toString a)) []]
        | none => []) ++
       [XElem.mk "octave" [] (some (toString n.octave)) []])]

def durationBlock (n : XNote) (dur : Int) : List XElem :=
  match n.kind with
  | NoteKind.grace _ => []
  | _ => [XElem.mk "duration" [] (some (toString dur)) []]

def tieBlock (n : XNote) : List XElem :=
  (if n.tiePrev then [XElem.mk "tie" [("type", "stop")] none []] else []) ++
  (if n.tieNext then [XElem.mk "tie" [("type", "start")] none []] else [])

def voiceBlock (n : XNote) : List XElem :=
  match n.voice with
  | some (some v) => if v = 0 then [] else [XElem.mk "voice" [] (some (toString v)) []]
  | _ => []

def typeBlock (n : XNote) : List XElem :=
  match n.symType with
  | some t => [XElem.mk "type" [] (some t) []]
  | none => []

def dotsBlock (n : XNote) : List XElem := List.replicate n.dots (XElem.mk "dot" [] none [])

def timeModBlock (n : XNote) : List XElem :=
  match n.actualNotes, n.normalNotes with
  | some a, some b =>
    [XElem.mk "time-modification" [] none
      [XElem.mk "actual-notes" [] (some (toString a)) [],
       XElem.mk "normal-notes" [] (some (toString b)) []]]
  | _, _ => []

def staffBlock (n : XNote) : List XElem :=
  match n.staff with
  | some st => if st = 0 then [] else [XElem.mk "staff" [] (some (toString st)) []]
  | none => []

def tiedBlock (n : XNote) : List XElem :=
  (if n.tiePrev then [XElem.mk "tied" [("type", "stop")] none []] else []) ++
  (if n.tieNext then [XElem.mk "tied" [("type", "start")] none []] else [])

def fermataBlock (n : XNote) : List XElem :=
  if n.fermata then [XElem.mk "fermata" [] none []] else []

/-- Children of the single trailing container in claimed order: tied
markers mirroring the tie markers, the fermata marker, then one stop tag
per closing slur and one start tag per opening slur. -/
def noteMarks (n : XNote) (c : Counter) : List XElem :=
  tiedBlock n ++ fermataBlock n ++ (processSlurStops n.slurStops c).1 ++
  (processSlurStarts n.slurStarts (processSlurStops n.slurStops c).2).1

/-! ### Counter dictionary lemmas -/

lemma find?_replace (c : Counter) (k : CKey) (v : Nat)
    (h : c.any (fun p => p.1 == k) = true) :
    (c.map (fun p => if p.1 == k then (k, v) else p)).find? (fun p => p.1 == k) = some (k, v) := by
  induction c with
  | nil => cases h
  | cons p t ih =>
    by_cases hp : (p.1 == k) = true
    · rw [List.map_cons, if_pos hp]
      exact List.find?_cons_of_pos _ (by simp)
    · have ht : t.any (fun p => p.1 == k) = true := by
        simp only [List.any_cons, hp, Bool.false_or] at h
        exact h
      rw [List.map_cons, if_neg hp,
        @List.find?_cons_of_neg _ (fun q => q.1 == k) p _ hp]
      exact ih ht

lemma cget_cset_self (c : Counter) (k : CKey) (v : Nat) :
    cget (cset c k v) k = some v := by
  unfold cget cset
  by_cases h : c.any (fun p => p.1 == k) = true
  · rw [if_pos h, find?_replace c k v h]
    rfl
  · rw [if_neg h, List.find?_append]
    have hn : c.find? (fun p => p.1 == k) = none := by
      rw [List.find?_eq_none]
      intro x hx hpx
      exact h (List.any_eq_true.mpr ⟨x, hx, hpx⟩)
    rw [hn]
    simp [List.find?]

lemma isEmpty_append_singleton (l : List XElem) (x : XElem) :
    (l ++ [x]).isEmpty = false := by
  cases l <;> rfl


/-! ### Claim 1: slur number assignment -/


/-- C1, counterexample. In the claimed scenario (slur 0 opens, slur 1 opens
while slur 0 is open, slur 0 closes, slur 2 opens) the code gives the first
two slurs numbers 1 and 2 and frees 1 at the close, but then assigns slur 2
the number `1 + (live slur count) = 2` — not 1, the smallest number not
assigned to a live slur, as the claim states — so the fresh slur collides
with the still-open slur numbered 2. -/
theorem claim1_counterexample :
    slurCtr1 = [(CKey.slur 0, 1)] ∧
    slurCtr2 = [(CKey.slur 0, 1), (CKey.slur 1, 2)] ∧
    slurCtr3 = [(CKey.slur 1, 2)] ∧
    cget (makeNoteEl slurNote4 4 slurCtr3).2 (CKey.slur 2) = some 2 ∧
    cget (makeNoteEl slurNote4 4 slurCtr3).2 (CKey.slur 2) ≠ some 1 ∧
    (makeNoteEl slurNote4 4 slurCtr3).1.children.getLast? =
      some (XElem.mk "notations" [] none
        [XElem.mk "slur" [("number", "2"), ("type", "start")] none []]) :=
  ⟨rfl, rfl, rfl, rfl, by decide, rfl⟩

/-- C1, amended: a slur-start reference not in the numbering table is
assigned `1 + (number of currently-live slur entries)`, which is not in
general the smallest number not assigned to a live slur; in the claimed
scenario the third slur is therefore assigned number 2 (equal to the number
of the still-open second slur), not 1. -/
theorem claim1_amended (n : XNote) (dur : Int) (c : Counter) (s : Nat)
    (hid : n.id = none) (hstops : n.slurStops = []) (hstarts : n.slurStarts = [s])
    (hfresh : cget c (CKey.slur s) = none) :
    cget (makeNoteEl n dur c).2 (CKey.slur s) = some (1 + liveSlurCount c) ∧
    (∃ M, (makeNoteEl n dur c).1.children.getLast? =
        some (XElem.mk "notations" [] none M) ∧
      slurEl (1 + liveSlurCount c) "start" ∈ M) ∧
    cget (makeNoteEl slurNote4 4 slurCtr3).2 (CKey.slur 2) = some 2 := by
  have hps : processSlurStarts [s] c =
      ([slurEl (1 + liveSlurCount c) "start"], cset c (CKey.slur s) (1 + liveSlurCount c)) := by
    simp [processSlurStarts, hfresh]
  refine ⟨?_, ?_, rfl⟩
  · simp only [makeNoteEl, hid, hstops, hstarts, idCounter, processSlurStops, hps]
    exact cget_cset_self c (CKey.slur s) (1 + liveSlurCount c)
  · simp only [makeNoteEl, hid, hstops, hstarts, idCounter, processSlurStops, hps]
    simp only [XElem.children, List.nil_append, isEmpty_append_singleton,
      Bool.false_eq_true, if_false, List.getLast?_concat]
    exact ⟨_, rfl, by simp⟩


/-- Witness for `claim1_amended` at a concrete input: one live slur in the
table, so the fresh slur-start gets number 1 + 1 = 2. -/
theorem claim1_amended_witness :
    cget (makeNoteEl slurNote1 4 wSlurCtr).2 (CKey.slur 0) = some (1 + liveSlurCount wSlurCtr) ∧
    (∃ M, (makeNoteEl slurNote1 4 wSlurCtr).1.children.getLast? =
        some (XElem.mk "notations" [] none M) ∧
      slurEl (1 + liveSlurCount wSlurCtr) "start" ∈ M) ∧
    cget (makeNoteEl slurNote4 4 slurCtr3).2 (CKey.slur 2) = some 2 :=
  claim1_amended slurNote1 4 wSlurCtr 0 rfl rfl rfl rfl

/-! ### Claim 2: a measure with no notes at all -/

/-- C2: on a measure (or sub-segment) containing no notes the voice
dictionary is empty, and `merge_measure_contents` fails (an IndexError at
`sorted(cost.items(), key=itemgetter(1))[0]`, modelled by `none`) instead
of emitting the collected attribute, direction and barline elements. -/
theorem claim2_empty_measure (attributes other : List Event) (ms : Int) :
    mergeMeasureContents [] attributes other ms = none := rfl

/-! ### Claim 3: unmatched slur-stop references -/

/-- C3, counterexample. For a note with a slur-stop reference absent from
the numbering table the export does not fail, but contrary to the claim the
reference is NOT skipped: a stop tag with number 1 is emitted and the
dangling slur is registered into the table (which is left changed). -/
theorem claim3_counterexample :
    (makeNoteEl slurNote3 4 []).2 = [(CKey.slur 0, 1)] ∧
    (makeNoteEl slurNote3 4 []).2 ≠ ([] : Counter) ∧
    (makeNoteEl slurNote3 4 []).1.children.getLast? =
      some (XElem.mk "notations" [] none
        [XElem.mk "slur" [("number", "1"), ("type", "stop")] none []]) :=
  ⟨rfl, by decide, rfl⟩

/-- C3, amended: a slur-stop reference not in the numbering table does not
make the export fail, but it is given number 1, registered into the table,
and a stop tag with number 1 is emitted for it. -/
theorem claim3_amended (n : XNote) (dur : Int) (c : Counter) (s : Nat)
    (hid : n.id = none) (hstops : n.slurStops = [s]) (hstarts : n.slurStarts = [])
    (hfresh : cget c (CKey.slur s) = none) :
    cget (makeNoteEl n dur c).2 (CKey.slur s) = some 1 ∧
    (∃ M, (makeNoteEl n dur c).1.children.getLast? =
        some (XElem.mk "notations" [] none M) ∧
      slurEl 1 "stop" ∈ M) := by
  have hps : processSlurStops [s] c =
      ([slurEl 1 "stop"], cset c (CKey.slur s) 1) := by
    simp [processSlurStops, hfresh]
  constructor
  · simp only [makeNoteEl, hid, hstops, hstarts, idCounter, hps, processSlurStarts]
    exact cget_cset_self c (CKey.slur s) 1
  · simp only [makeNoteEl, hid, hstops, hstarts, idCounter, hps, processSlurStarts]
    simp only [XElem.children, List.append_nil, isEmpty_append_singleton,
      Bool.false_eq_true, if_false, List.getLast?_concat]
    exact ⟨_, rfl, by simp⟩

/-- Witness for `claim3_amended` at a concrete input. -/
theorem claim3_amended_witness :
    cget (makeNoteEl slurNote3 4 []).2 (CKey.slur 0) = some 1 ∧
    (∃ M, (makeNoteEl slurNote3 4 []).1.children.getLast? =
        some (XElem.mk "notations" [] none M) ∧
      slurEl 1 "stop" ∈ M) :=
  claim3_amended slurNote3 4 [] 0 rfl rfl rfl rfl

/-! ### Claim 4: fermatas anchored exactly at the segment end -/

/-- C4, counterexample. A fermata anchored exactly at the segment end whose
disambiguation ref is None IS collected by `do_barlines` (the source filter
is `ref in (None, 'right')`), contrary to the claim that only an explicit
"right" ref is collected there. -/
theorem claim4_counterexample :
    doBarlines 0 4 [] [{ t := 4, ref := none }] [] [] [] [] =
      [(4, none, XElem.mk "barline" [("location", "right")] none
        [XElem.mk "fermata" [] none []])] := rfl

/-- C4, amended: a fermata anchored exactly at the segment end is collected
if and only if its ref is None or explicitly "right" (any other ref, e.g.
"left" or "middle", is dropped there). -/
theorem claim4_amended (s e : Int) (r : Option String) :
    doBarlines s e [] [{ t := e, ref := r }] [] [] [] [] ≠ [] ↔
      (r = none ∨ r = some "right") := by
  rcases r with _ | str
  · simp [doBarlines, sortedDistinct, stableSortBy, insSorted, List.destutter_singleton]
  · by_cases h : str = "right"
    · subst h
      simp [doBarlines, sortedDistinct, stableSortBy, insSorted, List.destutter_singleton]
    · simp [doBarlines, sortedDistinct, stableSortBy, insSorted, List.destutter_singleton, h]

/-! ### Claim 5: the missing-voice error -/


/-- C5, counterexample. A note whose voice attribute is present but None
does NOT raise the missing-voice error: it is grouped under the key None,
contrary to the claim that a None voice triggers the error. -/
theorem claim5_counterexample :
    groupNotesByVoice [noneVoiceNote] = some [(none, [noneVoiceNote])] := rfl

/-- C5, amended: the missing-voice error is raised if and only if some note
lacks the voice ATTRIBUTE (hasattr false); a note whose voice attribute is
None is grouped under the key None without error. -/
theorem claim5_amended (ns : List XNote) :
    groupNotesByVoice ns = none ↔ ∃ n, n ∈ ns ∧ n.voice = none := by
  unfold groupNotesByVoice
  cases h : ns.all (fun n => n.voice.isSome) with
  | false =>
    simp only [h, Bool.false_eq_true, if_false]
    constructor
    · intro _
      rw [List.all_eq_false] at h
      obtain ⟨n, hn, hv⟩ := h
      exact ⟨n, hn, Option.not_isSome_iff_eq_none.mp hv⟩
    · intro _
      trivial
  | true =>
    simp only [h, if_true]
    constructor
    · intro hc
      cases hc
    · rintro ⟨n, hn, hv⟩
      rw [List.all_eq_true] at h
      have h2 := h n hn
      rw [hv] at h2
      cases h2

/-! ### Claim 9, counterexample: unordered divisions queries -/

/-- C9, counterexample. The split-point construction only skips a divisions
start equal to the current LAST split, so when the range query returns the
divisions changes out of order the produced list is neither sorted nor
duplicate-free: query order [10, 5] over the measure [0, 20) yields
[0, 10, 5, 20], and [10, 5, 10] yields 10 twice. -/
theorem claim9_counterexample :
    splitPoints 0 20 [10, 5] = [0, 10, 5, 20] ∧
    ¬ List.Pairwise (fun a b => a < b) (splitPoints 0 20 [10, 5]) ∧
    splitPoints 0 20 [10, 5, 10] = [0, 10, 5, 10, 20] := by
  refine ⟨rfl, ?_, rfl⟩
  decide

lemma splitFoldSpec (dflt : Int) (ds : List Int) : ∀ (init : List Int) (lst : Int),
    List.Pairwise (fun a b => a < b) (init ++ [lst]) →
    List.Pairwise (fun a b => a ≤ b) ds →
    (∀ x ∈ ds, lst ≤ x) →
    ∃ ext,
      ds.foldl (fun acc d => if d ≠ acc.getLastD dflt then acc ++ [d] else acc) (init ++ [lst])
        = (init ++ [lst]) ++ ext ∧
      List.Pairwise (fun a b => a < b) ((init ++ [lst]) ++ ext) ∧
      (∀ x, x ∈ (init ++ [lst]) ++ ext ↔ x ∈ init ++ [lst] ∨ (x ∈ ds ∧ x ≠ lst)) := by
  induction ds with
  | nil =>
    intro init lst hpw _ _
    exact ⟨[], by simp, by simpa using hpw, by simp⟩
  | cons d rest ih =>
    intro init lst hpw hsort hbound
    have hlast : (init ++ [lst]).getLastD dflt = lst := List.getLastD_concat _ _ _
    by_cases hd : d = lst
    · have hstep : (if d ≠ (init ++ [lst]).getLastD dflt then (init ++ [lst]) ++ [d]
          else (init ++ [lst])) = init ++ [lst] := by
        rw [hlast, hd]
        simp
      obtain ⟨ext, heq, hpw2, hmem⟩ := ih init lst hpw (List.Pairwise.of_cons hsort)
        (fun x hx => hbound x (List.mem_cons_of_mem _ hx))
      refine ⟨ext, ?_, hpw2, ?_⟩
      · rw [List.foldl_cons, hstep]
        exact heq
      · intro x
        rw [hmem x]
        constructor
        · rintro (hx | ⟨hx, hne⟩)
          · exact Or.inl hx
          · exact Or.inr ⟨List.mem_cons_of_mem _ hx, hne⟩
        · rintro (hx | ⟨hx, hne⟩)
          · exact Or.inl hx
          · rcases List.mem_cons.mp hx with rfl | hx2
            · exact absurd hd (by exact fun h => hne h)
            · exact Or.inr ⟨hx2, hne⟩
    · have hlt : lst < d := lt_of_le_of_ne (hbound d (List.mem_cons_self _ _)) (Ne.symm hd)
      have hstep : (if d ≠ (init ++ [lst]).getLastD dflt then (init ++ [lst]) ++ [d]
          else (init ++ [lst])) = (init ++ [lst]) ++ [d] := by
        rw [hlast, if_pos hd]
      have hpw3 : List.Pairwise (fun a b => a < b) ((init ++ [lst]) ++ [d]) := by
        rw [List.pairwise_append]
        refine ⟨hpw, List.pairwise_singleton _ _, ?_⟩
        intro a ha b hb
        rw [List.mem_singleton] at hb
        subst hb
        rcases List.mem_append.mp ha with ha2 | ha2
        · have : a < lst := by
            rw [List.pairwise_append] at hpw
            exact hpw.2.2 a ha2 lst (List.mem_singleton_self _)
          exact lt_trans this hlt
        · rw [List.mem_singleton] at ha2
          subst ha2
          exact hlt
      obtain ⟨ext, heq, hpw2, hmem⟩ := ih (init ++ [lst]) d hpw3 (List.Pairwise.of_cons hsort)
        (fun x hx => List.rel_of_pairwise_cons hsort hx)
      refine ⟨d :: ext, ?_, ?_, ?_⟩
      · rw [List.foldl_cons, hstep, heq, List.append_assoc]
        rfl
      · rw [show (init ++ [lst]) ++ d :: ext = ((init ++ [lst]) ++ [d]) ++ ext by simp]
        exact hpw2
      · intro x
        have h1 := hmem x
        rw [show (init ++ [lst]) ++ d :: ext = ((init ++ [lst]) ++ [d]) ++ ext by simp]
        rw [h1]
        constructor
        · rintro (hx | ⟨hx, hne⟩)
          · rcases List.mem_append.mp hx with hx2 | hx2
            · exact Or.inl hx2
            · rw [List.mem_singleton] at hx2
              subst hx2
              exact Or.inr ⟨List.mem_cons_self _ _, hd⟩
          · have hxge : d ≤ x := List.rel_of_pairwise_cons hsort hx
            refine Or.inr ⟨List.mem_cons_of_mem _ hx, ?_⟩
            intro hxl
            subst hxl
            exact absurd (lt_of_lt_of_le hlt hxge) (lt_irrefl _)
        · rintro (hx | ⟨hx, hne⟩)
          · exact Or.inl (List.mem_append.mpr (Or.inl hx))
          · rcases List.mem_cons.mp hx with rfl | hx2
            · exact Or.inl (List.mem_append.mpr (Or.inr (List.mem_singleton_self _)))
            · by_cases hxd : x = d
              · subst hxd
                exact Or.inl (List.mem_append.mpr (Or.inr (List.mem_singleton_self _)))
              · exact Or.inr ⟨hx2, hxd⟩

/-- C9, amended: when the divisions-change range query returns its results
in nondecreasing start order (each start lying in the measure range), the
split-point list is strictly sorted, begins with the measure start, ends
with the measure end, and its members are exactly the measure bounds plus
the distinct divisions starts (strict sortedness makes each appear exactly
once); without that ordering assumption the property fails
(`claim9_counterexample`). -/
theorem claim9_amended (s e : Int) (ds : List Int) (x : Int)
    (hse : s < e) (hsort : List.Chain' (fun a b => a ≤ b) ds)
    (hmem : ∀ d ∈ ds, s ≤ d ∧ d < e) :
    List.Pairwise (fun a b => a < b) (splitPoints s e ds) ∧
    (splitPoints s e ds).head? = some s ∧
    (splitPoints s e ds).getLast? = some e ∧
    (x ∈ splitPoints s e ds ↔ x = s ∨ x = e ∨ x ∈ ds) := by
  have hpw0 : List.Pairwise (fun a b : Int => a < b) (([] : List Int) ++ [s]) :=
    List.pairwise_singleton _ _
  have hsort2 : List.Pairwise (fun a b : Int => a ≤ b) ds :=
    List.chain'_iff_pairwise.mp hsort
  obtain ⟨ext, heq, hpw, hm⟩ := splitFoldSpec s ds [] s hpw0 hsort2
    (fun d hd => (hmem d hd).1)
  simp only [List.nil_append] at heq hpw hm
  unfold splitPoints
  rw [heq]
  have hbnd : ∀ a ∈ [s] ++ ext, a < e := by
    intro a ha
    rcases (hm a).mp ha with ha2 | ⟨ha2, _⟩
    · rw [List.mem_singleton] at ha2
      subst ha2
      exact hse
    · exact (hmem a ha2).2
  refine ⟨?_, ?_, ?_, ?_⟩
  · rw [List.pairwise_append]
    refine ⟨hpw, List.pairwise_singleton _ _, ?_⟩
    intro a ha b hb
    rw [List.mem_singleton] at hb
    subst hb
    exact hbnd a ha
  · simp
  · exact List.getLast?_concat _
  · rw [List.mem_append, hm x]
    simp only [List.mem_singleton]
    constructor
    · rintro ((hx | ⟨hx, _⟩) | hx)
      · exact Or.inl hx
      · exact Or.inr (Or.inr hx)
      · exact Or.inr (Or.inl hx)
    · rintro (hx | hx | hx)
      · exact Or.inl (Or.inl hx)
      · exact Or.inr hx
      · by_cases hxs : x = s
        · exact Or.inl (Or.inl hxs)
        · exact Or.inl (Or.inr ⟨hx, hxs⟩)


/-- Witness for `claim9_amended` at a concrete input. -/
theorem claim9_amended_witness :
    (0 : Int) < 20 ∧
    (List.Pairwise (fun a b => a < b) (splitPoints 0 20 [5, 10]) ∧
    (splitPoints 0 20 [5, 10]).head? = some 0 ∧
    (splitPoints 0 20 [5, 10]).getLast? = some 20 ∧
    ((10 : Int) ∈ splitPoints 0 20 [5, 10] ↔ (10 : Int) = 0 ∨ (10 : Int) = 20 ∨
      (10 : Int) ∈ ([5, 10] : List Int))) :=
  ⟨by decide, claim9_amended 0 20 [5, 10] 10 (by decide) (by simp [List.chain'_cons]) (by decide)⟩


/-! ### Claim 8: chord tagging and the merge cursor -/

lemma graceB_chordTagEv (ev : Event) : graceB (chordTagEv ev) = graceB ev := by
  rcases ev with ⟨o, d, el⟩
  rcases el with ⟨t, a, x, ch⟩
  simp [graceB, chordTagEv, chordIns, XElem.children, List.any_cons, XElem.tag]

lemma chordStepPrev_eq (p : Option Int) (ev : Event) :
    chordStepPrev p ev = if graceB ev then none else some ev.1 := by
  by_cases h : p = some ev.1
  · simp only [chordStepPrev, chordStepEl, if_pos h, graceB_chordTagEv]
  · simp only [chordStepPrev, chordStepEl, if_neg h]

lemma chordGo_eq_specGo (l : List Event) : ∀ p : Event,
    chordGo (if graceB p then none else some p.1) l = chordSpecGo p l := by
  induction l with
  | nil =>
    intro p
    rfl
  | cons ev rest ih =>
    intro p
    show chordStepEl _ ev :: chordGo (chordStepPrev _ ev) rest = _
    rw [chordStepPrev_eq, ih ev]
    show _ = (if graceB p = false ∧ p.1 = ev.1 then chordTagEv ev else ev) :: chordSpecGo ev rest
    congr 1
    by_cases hg : graceB p
    · simp [chordStepEl, hg]
    · by_cases ho : p.1 = ev.1
      · simp [chordStepEl, hg, ho]
      · simp [chordStepEl, hg, ho]

lemma addChordTags_eq_marked (l : List Event) : addChordTags l = chordMarkedList l := by
  cases l with
  | nil => rfl
  | cons ev rest =>
    show chordStepEl none ev :: chordGo (chordStepPrev none ev) rest = ev :: chordSpecGo ev rest
    have h1 : chordStepEl none ev = ev := by simp [chordStepEl]
    rw [chordStepPrev_eq, h1, chordGo_eq_specGo rest ev]

lemma specGo_grace_mem (l : List Event) : ∀ p : Event,
    List.Chain' (fun a b => voiceOrdB a b = true) (p :: l) →
    ∀ ev ∈ chordSpecGo p l, graceB ev = true → ev ∈ l := by
  induction l with
  | nil =>
    intro p _ ev h
    cases h
  | cons b rest ih =>
    intro p hch ev hmem hg
    rw [List.chain'_cons] at hch
    obtain ⟨hpb, hch2⟩ := hch
    rw [show chordSpecGo p (b :: rest) =
      (if graceB p = false ∧ p.1 = b.1 then chordTagEv b else b) :: chordSpecGo b rest from rfl] at hmem
    rcases List.mem_cons.mp hmem with heq | hmem2
    · by_cases hc : graceB p = false ∧ p.1 = b.1
      · exfalso
        rw [if_pos hc] at heq
        subst heq
        rw [graceB_chordTagEv] at hg
        unfold voiceOrdB at hpb
        rw [hc.2] at hpb
        simp [hg, hc.1] at hpb
      · rw [if_neg hc] at heq
        subst heq
        exact List.mem_cons_self _ _
    · exact List.mem_cons_of_mem _ (ih b hch2 ev hmem2 hg)

/-- C8: (a) `add_chord_tags` computes exactly the reference tagging
`chordMarkedList` (an element gets a chord marker, inserted as first
child, iff the immediately preceding element is a non-grace element with
the same onset, each grace element resetting the tracked previous onset);
(b) on a voice list ordered as the linearizer sorts it, every grace
element passes through untagged; (c) in the merge, a chord-tagged note
sharing its predecessor's onset causes no forward/backup element and no
cost: the cursor advances only once for the chord. -/
theorem claim8_chord_tagging (evs : List Event)
    (hs : List.Chain' (fun a b => voiceOrdB a b = true) evs)
    (t d1 d2 : Int) (e1 e2 : XElem)
    (h1 : e1.tag = "note") (h2 : e2.tag = "note")
    (hc1 : e1.children.any (fun c => c.tag == "chord") = false)
    (hc2 : e2.children.any (fun c => c.tag == "chord") = true) :
    addChordTags evs = chordMarkedList evs ∧
    (∀ ev ∈ addChordTags evs, graceB ev = true → ev ∈ evs) ∧
    mergeWithVoice [(t, some d1, e1), (t, some d2, e2)] [] t =
      ([(t, some d1, e1), (t, some d2, e2)], 0) := by
  refine ⟨addChordTags_eq_marked evs, ?_, ?_⟩
  · rw [addChordTags_eq_marked]
    cases evs with
    | nil =>
      intro ev h
      cases h
    | cons a rest =>
      intro ev hmem hg
      rcases List.mem_cons.mp hmem with rfl | hmem2
      · exact List.mem_cons_self _ _
      · exact List.mem_cons_of_mem _ (specGo_grace_mem rest a hs ev hmem2 hg)
  · simp [mergeWithVoice, sortedDistinct, stableSortBy, insSorted, orderKey,
      mwvStep, forwardBackupIfNeeded, h1, h2, hc1, hc2, List.destutter_cons_cons,
      List.destutter_singleton, MWVState.mk.injEq]

/-- Witness for `claim8_chord_tagging` at a concrete voice list (a grace
element, two same-onset notes of which the second is chord-tagged, and a
later note). -/
theorem claim8_chord_tagging_witness :
    addChordTags wChordEvs = chordMarkedList wChordEvs ∧
    (∀ ev ∈ addChordTags wChordEvs, graceB ev = true → ev ∈ wChordEvs) ∧
    mergeWithVoice [(0, some 4, wPlainEl), (0, some 4, wChordEl)] [] 0 =
      ([(0, some 4, wPlainEl), (0, some 4, wChordEl)], 0) :=
  claim8_chord_tagging wChordEvs
    (by simp [wChordEvs, List.chain'_cons, voiceOrdB, graceB, wGraceEl, wPlainEl, wChordEl,
      XElem.children, XElem.tag])
    0 4 4 wPlainEl wChordEl rfl rfl rfl rfl

/-! ### Stable sort lemmas and the voice-merge assembly -/

lemma insSorted_ne_nil {α β : Type _} [LinearOrder β] (key : α → β) (a : α) (l : List α) :
    insSorted key a l ≠ [] := by
  cases l with
  | nil => simp [insSorted]
  | cons b t =>
    unfold insSorted
    by_cases h : key a ≤ key b
    · simp [h]
    · simp [h]

lemma mem_insSorted {α β : Type _} [LinearOrder β] (key : α → β) (a x : α) (l : List α) :
    x ∈ insSorted key a l ↔ x = a ∨ x ∈ l := by
  induction l with
  | nil => simp [insSorted]
  | cons b t ih =>
    unfold insSorted
    by_cases h : key a ≤ key b
    · simp [h]
    · simp [h, ih]
      tauto

lemma mem_stableSortBy {α β : Type _} [LinearOrder β] (key : α → β) (x : α) (l : List α) :
    x ∈ stableSortBy key l ↔ x ∈ l := by
  induction l with
  | nil => simp [stableSortBy]
  | cons a t ih => simp [stableSortBy, mem_insSorted, ih]

lemma stableSortBy_eq_nil {α β : Type _} [LinearOrder β] (key : α → β) (l : List α) :
    stableSortBy key l = [] ↔ l = [] := by
  cases l with
  | nil => simp [stableSortBy]
  | cons a t =>
    simp only [stableSortBy]
    constructor
    · intro h
      exact absurd h (insSorted_ne_nil key a _)
    · intro h
      cases h

lemma pairwise_insSorted {α β : Type _} [LinearOrder β] (key : α → β) (a : α) (l : List α)
    (h : List.Pairwise (fun u v => key u ≤ key v) l) :
    List.Pairwise (fun u v => key u ≤ key v) (insSorted key a l) := by
  induction l with
  | nil => simp [insSorted]
  | cons b t ih =>
    unfold insSorted
    by_cases hab : key a ≤ key b
    · rw [if_pos hab]
      constructor
      · intro x hx
        rcases List.mem_cons.mp hx with rfl | hx2
        · exact hab
        · exact le_trans hab (List.rel_of_pairwise_cons h hx2)
      · exact h
    · rw [if_neg hab]
      constructor
      · intro x hx
        rw [mem_insSorted] at hx
        rcases hx with rfl | hx2
        · exact le_of_lt (lt_of_not_le hab)
        · exact List.rel_of_pairwise_cons h hx2
      · exact ih (List.Pairwise.of_cons h)

lemma pairwise_stableSortBy {α β : Type _} [LinearOrder β] (key : α → β) (l : List α) :
    List.Pairwise (fun u v => key u ≤ key v) (stableSortBy key l) := by
  induction l with
  | nil => exact List.Pairwise.nil
  | cons a t ih => exact pairwise_insSorted key a _ ih

lemma head_stableSortBy {α β : Type _} [LinearOrder β] (key : α → β) (l : List α) (h : α)
    (hh : (stableSortBy key l).head? = some h) :
    ∃ l1 l2, l = l1 ++ h :: l2 ∧ ∀ x ∈ l1, key h < key x := by
  induction l generalizing h with
  | nil => cases hh
  | cons a t ih =>
    rw [show stableSortBy key (a :: t) = insSorted key a (stableSortBy key t) from rfl] at hh
    cases hst : stableSortBy key t with
    | nil =>
      rw [hst] at hh
      simp only [insSorted, List.head?_cons, Option.some.injEq] at hh
      subst hh
      exact ⟨[], t, rfl, by simp⟩
    | cons b t' =>
      rw [hst] at hh
      unfold insSorted at hh
      by_cases hab : key a ≤ key b
      · rw [if_pos hab] at hh
        simp only [List.head?_cons, Option.some.injEq] at hh
        subst hh
        exact ⟨[], t, rfl, by simp⟩
      · rw [if_neg hab] at hh
        simp only [List.head?_cons, Option.some.injEq] at hh
        subst hh
        obtain ⟨l1, l2, heq, hlt⟩ := ih b (show (stableSortBy key t).head? = some b by
          rw [hst, List.head?_cons])
        refine ⟨a :: l1, l2, by rw [heq]; rfl, ?_⟩
        intro x hx
        rcases List.mem_cons.mp hx with rfl | hx2
        · exact lt_of_not_le hab
        · exact hlt x hx2

lemma voiceSegment_shape (elements : List Event) (pos : Int) :
    ∃ jump, (voiceSegment elements pos).1 = jump ++ elements.map (fun x => x.2.2) ∧
      jump.length ≤ 1 ∧ (∀ x ∈ jump, x.tag = "backup" ∨ x.tag = "forward") := by
  cases elements with
  | nil => exact ⟨[], rfl, by simp, by simp⟩
  | cons e0 es =>
    refine ⟨if e0.1 - pos < 0 then
        [XElem.mk "backup" [] none [XElem.mk "duration" [] (some (toString (-(e0.1 - pos)))) []]]
      else if 0 < e0.1 - pos then
        [XElem.mk "forward" [] none [XElem.mk "duration" [] (some (toString (e0.1 - pos))) []]]
      else [], rfl, ?_, ?_⟩
    · split_ifs <;> simp
    · split_ifs <;> simp [XElem.tag]

lemma mmcVoices_extract (notes : List (Nat × List Event)) (other attributes : List Event)
    (ms : Int) (mv v : Nat) (hne : v ≠ mv) :
    ∀ (vs : List Nat) (b : Bool) (pos : Int),
    v ∈ vs → (b = true → vs.head? ≠ some v) →
    ∃ pre jump suf,
      mmcVoices notes other attributes ms mv vs b pos =
        pre ++ (jump ++ (lookupVoice notes v).map (fun x => x.2.2)) ++ suf ∧
      jump.length ≤ 1 ∧
      (∀ x ∈ jump, x.tag = "backup" ∨ x.tag = "forward") := by
  intro vs
  induction vs with
  | nil =>
    intro b pos hmem _
    cases hmem
  | cons w rest ih =>
    intro b pos hmem hfirst
    by_cases hvw : v = w
    · have hb : b = false := by
        cases b with
        | false => rfl
        | true =>
          exact absurd (show (w :: rest).head? = some v by rw [List.head?_cons, hvw]) (hfirst rfl)
      subst hb
      subst hvw
      have helems : mmcElems notes other attributes ms mv v false = lookupVoice notes v := by
        simp [mmcElems, hne]
      obtain ⟨jump, hseg, hlen, htags⟩ := voiceSegment_shape (lookupVoice notes v) pos
      refine ⟨[], jump, mmcVoices notes other attributes ms mv rest false
        (voiceSegment (mmcElems notes other attributes ms mv v false) pos).2, ?_, hlen, htags⟩
      show (voiceSegment (mmcElems notes other attributes ms mv v false) pos).1 ++
        mmcVoices notes other attributes ms mv rest false
          (voiceSegment (mmcElems notes other attributes ms mv v false) pos).2 = _
      rw [helems, hseg]
      simp
    · have hvrest : v ∈ rest := by
        rcases List.mem_cons.mp hmem with h | h
        · exact absurd h hvw
        · exact h
      obtain ⟨pre, jump, suf, heq, hlen, htags⟩ :=
        ih false (voiceSegment (mmcElems notes other attributes ms mv w b) pos).2 hvrest
          (fun h => absurd h Bool.false_ne_true)
      refine ⟨(voiceSegment (mmcElems notes other attributes ms mv w b) pos).1 ++ pre,
        jump, suf, ?_, hlen, htags⟩
      show (voiceSegment (mmcElems notes other attributes ms mv w b) pos).1 ++
        mmcVoices notes other attributes ms mv rest false
          (voiceSegment (mmcElems notes other attributes ms mv w b) pos).2 = _
      rw [heq]
      simp [List.append_assoc]

lemma selectMergeVoice_spec (notes : List (Nat × List Event)) (other : List Event)
    (ms : Int) (hne : notes ≠ []) :
    ∃ mv, selectMergeVoice notes other ms = some mv ∧
      mv ∈ notes.map (fun p => p.1) ∧
      (∀ v ∈ notes.map (fun p => p.1),
        (mergeWithVoice (lookupVoice notes mv) other ms).2 ≤
          (mergeWithVoice (lookupVoice notes v) other ms).2) ∧
      (∀ v ∈ notes.map (fun p => p.1),
        (mergeWithVoice (lookupVoice notes v) other ms).2 =
          (mergeWithVoice (lookupVoice notes mv) other ms).2 → mv ≤ v) := by
  have hkeys : notes.map (fun p => p.1) ≠ [] := by
    intro h
    exact hne (List.map_eq_nil_iff.mp h)
  have hsvlne : sortedVoiceIds notes ≠ [] := by
    intro h
    exact hkeys ((stableSortBy_eq_nil _ _).mp h)
  have hvclne : voiceCostList notes other ms ≠ [] := by
    unfold voiceCostList
    intro h
    exact hsvlne (List.map_eq_nil_iff.mp h)
  cases hsort : stableSortBy (fun p : Nat × Int => p.2) (voiceCostList notes other ms) with
  | nil => exact absurd ((stableSortBy_eq_nil _ _).mp hsort) hvclne
  | cons p tail =>
    have hh : (stableSortBy (fun p : Nat × Int => p.2) (voiceCostList notes other ms)).head? =
        some p := by rw [hsort, List.head?_cons]
    have hsel : selectMergeVoice notes other ms = some p.1 := by
      unfold selectMergeVoice
      rw [hh]
      rfl
    have hpmem : p ∈ voiceCostList notes other ms := by
      rw [← mem_stableSortBy (fun p : Nat × Int => p.2), hsort]
      exact List.mem_cons_self _ _
    obtain ⟨v0, hv0, hpeq⟩ := List.mem_map.mp hpmem
    have hp1 : p.1 = v0 := by rw [← hpeq]
    have hp2 : p.2 = (mergeWithVoice (lookupVoice notes p.1) other ms).2 := by
      rw [← hpeq]
    have hmin : ∀ q ∈ voiceCostList notes other ms, p.2 ≤ q.2 := by
      intro q hq
      have hq2 : q ∈ stableSortBy (fun p : Nat × Int => p.2) (voiceCostList notes other ms) :=
        (mem_stableSortBy _ _ _).mpr hq
      rw [hsort] at hq2
      rcases List.mem_cons.mp hq2 with rfl | hq3
      · exact le_refl _
      · have hpw := pairwise_stableSortBy (fun p : Nat × Int => p.2) (voiceCostList notes other ms)
        rw [hsort] at hpw
        exact List.rel_of_pairwise_cons hpw hq3
    obtain ⟨L1, L2, hdec, hL1⟩ :=
      head_stableSortBy (fun p : Nat × Int => p.2) (voiceCostList notes other ms) p hh
    have hfst : List.Pairwise (fun a b : Nat × Int => a.1 ≤ b.1) (voiceCostList notes other ms) := by
      have hP : List.Pairwise (fun u v : Nat => u ≤ v) (sortedVoiceIds notes) := by
        unfold sortedVoiceIds
        exact pairwise_stableSortBy (fun v : Nat => v) (notes.map (fun p => p.1))
      unfold voiceCostList
      exact List.Pairwise.map _ (fun a b hab => hab) hP
    have hmemq : ∀ v ∈ notes.map (fun p => p.1),
        (v, (mergeWithVoice (lookupVoice notes v) other ms).2) ∈ voiceCostList notes other ms := by
      intro v hv
      unfold voiceCostList
      exact List.mem_map.mpr ⟨v, (mem_stableSortBy _ _ _).mpr hv, rfl⟩
    refine ⟨p.1, hsel, ?_, ?_, ?_⟩
    · rw [hp1]
      exact (mem_stableSortBy _ _ _).mp hv0
    · intro v hv
      have := hmin _ (hmemq v hv)
      rw [hp2] at this
      exact this
    · intro v hv hveq
      have hqmem : (v, (mergeWithVoice (lookupVoice notes v) other ms).2) ∈ L1 ++ p :: L2 := by
        rw [← hdec]
        exact hmemq v hv
      rcases List.mem_append.mp hqmem with hq1 | hq2
      · exfalso
        have := hL1 _ hq1
        rw [show (v, (mergeWithVoice (lookupVoice notes v) other ms).2).2 =
          (mergeWithVoice (lookupVoice notes v) other ms).2 from rfl] at this
        rw [hveq, ← hp2] at this
        exact lt_irrefl _ this
      · rcases List.mem_cons.mp hq2 with hqp | hq3
        · have : v = p.1 := by
            rw [show v = (v, (mergeWithVoice (lookupVoice notes v) other ms).2).1 from rfl, hqp]
          rw [this]
        · have hpw2 : List.Pairwise (fun a b : Nat × Int => a.1 ≤ b.1) (p :: L2) := by
            rw [hdec] at hfst
            exact (List.pairwise_append.mp hfst).2.1
          exact List.rel_of_pairwise_cons hpw2 hq3

/-! ### Claim 6: cheapest-voice selection and attribute placement -/

/-- C6: the voice hosting the direction/barline ("other") elements is
exactly one of minimum trial-merge jump cost, ties broken in favour of the
lowest voice id (the head of the cost table stably sorted by cost); the
attribute blocks are always interleaved into the first voice in ascending
voice-id order, whichever voice won; and every non-selected voice beyond
the first contributes its note element list unmodified (contiguously) to
the assembled output. -/
theorem claim6_cheapest_voice (notes : List (Nat × List Event)) (attributes other : List Event)
    (ms : Int) (hne : notes ≠ []) :
    ∃ mv, selectMergeVoice notes other ms = some mv ∧
      mv ∈ notes.map (fun p => p.1) ∧
      (∀ v ∈ notes.map (fun p => p.1),
        (mergeWithVoice (lookupVoice notes mv) other ms).2 ≤
          (mergeWithVoice (lookupVoice notes v) other ms).2) ∧
      (∀ v ∈ notes.map (fun p => p.1),
        (mergeWithVoice (lookupVoice notes v) other ms).2 =
          (mergeWithVoice (lookupVoice notes mv) other ms).2 → mv ≤ v) ∧
      (∃ v0 vrest rest, sortedVoiceIds notes = v0 :: vrest ∧
        mergeMeasureContents notes attributes other ms =
          some ((voiceSegment ((mergeWithVoice
            (if v0 = mv then (mergeWithVoice (lookupVoice notes v0) other ms).1
             else lookupVoice notes v0) attributes ms).1) ms).1 ++ rest)) ∧
      (∀ v ∈ notes.map (fun p => p.1), v ≠ mv → (sortedVoiceIds notes).head? ≠ some v →
        ∃ res pre suf, mergeMeasureContents notes attributes other ms = some res ∧
          res = pre ++ (lookupVoice notes v).map (fun x => x.2.2) ++ suf) := by
  obtain ⟨mv, hsel, hmem, hmin, htie⟩ := selectMergeVoice_spec notes other ms hne
  refine ⟨mv, hsel, hmem, hmin, htie, ?_, ?_⟩
  · have hsvlne : sortedVoiceIds notes ≠ [] := by
      unfold sortedVoiceIds
      intro h
      exact hne (List.map_eq_nil_iff.mp ((stableSortBy_eq_nil _ _).mp h))
    cases hsvl : sortedVoiceIds notes with
    | nil => exact absurd hsvl hsvlne
    | cons v0 vrest =>
      refine ⟨v0, vrest, mmcVoices notes other attributes ms mv vrest false
        (voiceSegment (mmcElems notes other attributes ms mv v0 true) ms).2, rfl, ?_⟩
      unfold mergeMeasureContents
      rw [hsel, hsvl]
      rfl
  · intro v hv hvmv hnf
    have hvsvl : v ∈ sortedVoiceIds notes := by
      unfold sortedVoiceIds
      exact (mem_stableSortBy _ _ _).mpr hv
    obtain ⟨pre, jump, suf, heq, _, _⟩ := mmcVoices_extract notes other attributes ms mv v hvmv
      (sortedVoiceIds notes) true ms hvsvl (fun _ => hnf)
    refine ⟨mmcVoices notes other attributes ms mv (sortedVoiceIds notes) true ms,
      pre ++ jump, suf, ?_, ?_⟩
    · unfold mergeMeasureContents
      rw [hsel]
    · rw [heq]
      simp [List.append_assoc]

/-- Witness for `claim6_cheapest_voice` at a concrete three-voice measure
(voice 2 hosts the direction at cost 0; voices 1 and 3 would cost 2 and 4). -/
theorem claim6_cheapest_voice_witness :
    ∃ mv, selectMergeVoice w10notes w10other 0 = some mv ∧
      mv ∈ w10notes.map (fun p => p.1) ∧
      (∀ v ∈ w10notes.map (fun p => p.1),
        (mergeWithVoice (lookupVoice w10notes mv) w10other 0).2 ≤
          (mergeWithVoice (lookupVoice w10notes v) w10other 0).2) ∧
      (∀ v ∈ w10notes.map (fun p => p.1),
        (mergeWithVoice (lookupVoice w10notes v) w10other 0).2 =
          (mergeWithVoice (lookupVoice w10notes mv) w10other 0).2 → mv ≤ v) ∧
      (∃ v0 vrest rest, sortedVoiceIds w10notes = v0 :: vrest ∧
        mergeMeasureContents w10notes [] w10other 0 =
          some ((voiceSegment ((mergeWithVoice
            (if v0 = mv then (mergeWithVoice (lookupVoice w10notes v0) w10other 0).1
             else lookupVoice w10notes v0) [] 0).1) 0).1 ++ rest)) ∧
      (∀ v ∈ w10notes.map (fun p => p.1), v ≠ mv → (sortedVoiceIds w10notes).head? ≠ some v →
        ∃ res pre suf, mergeMeasureContents w10notes [] w10other 0 = some res ∧
          res = pre ++ (lookupVoice w10notes v).map (fun x => x.2.2) ++ suf) :=
  claim6_cheapest_voice w10notes [] w10other 0
    (by unfold w10notes; exact List.cons_ne_nil _ _)

/-! ### Claim 10: non-host voices are emitted without internal jumps -/

/-- C10: a voice that is neither the cost-minimal host voice nor the first
voice contributes to the assembled measure exactly its own note elements,
contiguously, preceded by at most one forward/backup element (the
repositioning jump) — no forward or backup element appears between its
consecutive elements, whatever its onsets and durations are. -/
theorem claim10_nonhost_block (notes : List (Nat × List Event)) (attributes other : List Event)
    (ms : Int) (v mv : Nat)
    (hsel : selectMergeVoice notes other ms = some mv)
    (hvmem : v ∈ notes.map (fun p => p.1))
    (hvne : v ≠ mv)
    (hnotfirst : (sortedVoiceIds notes).head? ≠ some v)
    (htags : ∀ ev ∈ lookupVoice notes v, (ev : Event).2.2.tag = "note") :
    ∃ res pre jump suf,
      mergeMeasureContents notes attributes other ms = some res ∧
      res = pre ++ (jump ++ (lookupVoice notes v).map (fun x => x.2.2)) ++ suf ∧
      jump.length ≤ 1 ∧
      (∀ x ∈ jump, x.tag = "backup" ∨ x.tag = "forward") ∧
      (∀ x ∈ (lookupVoice notes v).map (fun x => x.2.2),
        x.tag ≠ "backup" ∧ x.tag ≠ "forward") := by
  have hvsvl : v ∈ sortedVoiceIds notes := by
    unfold sortedVoiceIds
    exact (mem_stableSortBy _ _ _).mpr hvmem
  obtain ⟨pre, jump, suf, heq, hlen, hjt⟩ := mmcVoices_extract notes other attributes ms mv v hvne
    (sortedVoiceIds notes) true ms hvsvl (fun _ => hnotfirst)
  refine ⟨_, pre, jump, suf, ?_, heq, hlen, hjt, ?_⟩
  · unfold mergeMeasureContents
    rw [hsel]
  · intro x hx
    obtain ⟨ev, hev, hevx⟩ := List.mem_map.mp hx
    have ht := htags ev hev
    rw [← hevx]
    refine ⟨?_, ?_⟩
    · show ev.2.2.tag ≠ "backup"
      rw [ht]
      decide
    · show ev.2.2.tag ≠ "forward"
      rw [ht]
      decide

/-- Witness for `claim10_nonhost_block`: voice 3 (neither the winner,
voice 2, nor the first voice) contributes its single note element with at
most one jump before it. -/
theorem claim10_nonhost_block_witness :
    ∃ res pre jump suf,
      mergeMeasureContents w10notes [] w10other 0 = some res ∧
      res = pre ++ (jump ++ (lookupVoice w10notes 3).map (fun x => x.2.2)) ++ suf ∧
      jump.length ≤ 1 ∧
      (∀ x ∈ jump, x.tag = "backup" ∨ x.tag = "forward") ∧
      (∀ x ∈ (lookupVoice w10notes 3).map (fun x => x.2.2),
        x.tag ≠ "backup" ∧ x.tag ≠ "forward") :=
  claim10_nonhost_block w10notes [] w10other 0 3 2 rfl (by decide) (by decide) (by decide)
    (by
      intro ev hev
      simp [lookupVoice, w10notes, wPlainEl] at hev
      rw [hev]
      rfl)

/-! ### Claim 7: note element child order -/

/-- C7: the children of every constructed note element are exactly, in
this order: optional grace marker (slash only for acciaccatura), pitch
block (step, optional alter, octave) or rest marker, duration (omitted
for grace notes), tie stop/start markers, voice number (omitted for
voice 0/None), symbolic type name, one dot per dot, the time-modification
block when both actual and normal counts are present, the staff number
when set, and one container holding the tied markers, the fermata marker,
the slur stop tags and then the slur start tags. -/
theorem claim7_note_child_order (n : XNote) (dur : Int) (c : Counter) :
    (makeNoteEl n dur c).1.children =
      graceBlock n ++ pitchRestBlock n ++ durationBlock n dur ++ tieBlock n ++
      voiceBlock n ++ typeBlock n ++ dotsBlock n ++ timeModBlock n ++ staffBlock n ++
      (if (noteMarks n (idCounter n c)).isEmpty then []
       else [XElem.mk "notations" [] none (noteMarks n (idCounter n c))]) := by
  simp only [makeNoteEl, XElem.children, graceBlock, pitchRestBlock, durationBlock,
    tieBlock, voiceBlock, typeBlock, dotsBlock, timeModBlock, staffBlock,
    noteMarks, tiedBlock, fermataBlock, List.append_assoc]

end Partitura
